import Mathlib

/-!
# Verification of the haze dynamic lexicon growth engine

Shallow embedding of `haze/lexicon.py`: word/trigram extraction, the
`Lexicon` class (absorb / inject / decay / stats) and the record types.
Python floats are modelled as exact rationals, Python dicts as ordered
association lists, Python sets as duplicate-free lists, and the
co-occurrence store's nested `dict`-of-`Counter` tables as total count
functions (absent key = 0, matching `Counter` semantics).  The tokenizer
(`vocab.encode`) is an external collaborator of this core and is carried
as an explicit function parameter.
-/

namespace Haze

/-- A word character in the sense of the regex `\w` used by
`_extract_words` / `_extract_trigrams`: alphanumeric or underscore. -/
def isWordChar (c : Char) : Bool := c.isAlphanum || c = '_'

/-- `text.lower()` as a character list. -/
def lowerChars (s : String) : List Char := s.data.map Char.toLower

/-- Split a character list into the maximal runs of word characters,
accumulating the current (reversed) run in `acc`.  This is
`re.findall(r'\b\w+\b', ...)`: the regex returns exactly the maximal
`\w`-runs of the text. -/
def splitRuns : List Char → List Char → List String
  | [], acc => if acc.isEmpty then [] else [String.mk acc.reverse]
  | c :: cs, acc =>
    if isWordChar c then splitRuns cs (c :: acc)
    else if acc.isEmpty then splitRuns cs [] else String.mk acc.reverse :: splitRuns cs []

/-- `re.findall(r'\b\w+\b', text.lower())`: the unfiltered lowercased
word sequence that both extraction functions start from. -/
def rawWords (text : String) : List String := splitRuns (lowerChars text) []

/-- `Lexicon._extract_words`: the raw word sequence filtered by
`len(w) >= self.min_word_length`. -/
def extractWords (minLen : Nat) (text : String) : List String :=
  (rawWords text).filter (fun w => minLen ≤ w.length)

/-- All consecutive 3-windows of a word sequence: the loop
`for i in range(len(words) - 2)` of `_extract_trigrams`. -/
def triWindows : List String → List (String × String × String)
  | a :: b :: c :: rest => (a, b, c) :: triWindows (b :: c :: rest)
  | _ => []

/-- `Lexicon._extract_trigrams`: 3-windows over the unfiltered word
sequence. -/
def extractTrigrams (text : String) : List (String × String × String) :=
  triWindows (rawWords text)

/-- The co-occurrence store (`CooccurField` collaborator): its
`bigram_counts` (`dict[token, Counter[token]]`) and `trigram_counts`
(`dict[(token, token), Counter[token]]`), modelled as total count
functions; a key that was never written holds 0, exactly as a missing
`dict` entry / `Counter` default does. -/
structure CooccurField where
  bigram_counts : Nat → Nat → Int
  trigram_counts : Nat → Nat → Nat → Int

/-- Python `int()` applied to an exact rational: truncation toward
zero. -/
def truncInt (q : ℚ) : Int := Int.tdiv q.num (q.den : Int)

/-- `Lexicon._inject_trigram`.  Encodes the three words, aborts when any
encoding is empty (`if not w1_tokens or ...: return`), otherwise adds
`int(weight)` to the two boundary bigram counts in order and to the one
trigram count. -/
def injectTrigram (encode : String → List Nat) (st : CooccurField)
    (tri : String × String × String) (weight : ℚ) : CooccurField :=
  let w1 := encode tri.1
  let w2 := encode tri.2.1
  let w3 := encode tri.2.2
  match w1.getLast?, w2.head?, w2.getLast?, w3.head? with
  | some last_w1, some first_w2, some last_w2, some first_w3 =>
    let iw := truncInt weight
    let b1 : Nat → Nat → Int := fun a b =>
      if a = last_w1 ∧ b = first_w2 then st.bigram_counts a b + iw else st.bigram_counts a b
    let b2 : Nat → Nat → Int := fun a b =>
      if a = last_w2 ∧ b = first_w3 then b1 a b + iw else b1 a b
    let t1 : Nat → Nat → Nat → Int := fun a b c =>
      if a = last_w1 ∧ b = first_w2 ∧ c = last_w2 then st.trigram_counts a b c + iw
      else st.trigram_counts a b c
    { bigram_counts := b2, trigram_counts := t1 }
  | _, _, _, _ => st

/-- `AbsorptionRecord`: what one `absorb` call newly took in. -/
structure AbsorptionRecord where
  timestamp : ℚ
  source : String
  words : List String
  trigrams : List (String × String × String)
deriving DecidableEq

/-- `AbsorptionRecord.count`. -/
def AbsorptionRecord.count (r : AbsorptionRecord) : Nat :=
  r.words.length + r.trigrams.length

/-- `LexiconStats`. -/
structure LexiconStats where
  total_words : Nat
  total_trigrams : Nat
  unique_sources : Nat
  recent_absorptions : Nat
  growth_rate : ℚ
deriving DecidableEq

/-- Lookup in an ordered association list (Python `dict.get`). -/
def lookupW : List (String × ℚ) → String → Option ℚ
  | [], _ => none
  | p :: ps, k => if p.1 = k then some p.2 else lookupW ps k

/-- Assignment `d[k] = v` on an ordered association list: overwrite the
existing entry in place, else append at the end — Python dict update
semantics. -/
def updateWeight : List (String × ℚ) → String → ℚ → List (String × ℚ)
  | [], k, v => [(k, v)]
  | p :: ps, k, v => if p.1 = k then (k, v) :: ps else p :: updateWeight ps k v

/-- The reinforcement update `min(2.0, weight + 0.1)` of `absorb`. -/
def reinforceWeight (x : ℚ) : ℚ := min 2 (x + 1 / 10)

/-- The `Lexicon` instance state.  `injections` is ghost
instrumentation only: it logs, in order, the trigram argument of every
call made to `_inject_trigram`, so that "number of injection attempts"
is expressible; no operation reads it. -/
structure Lexicon where
  encode : String → List Nat
  field : CooccurField
  decay_rate : ℚ
  min_word_length : Nat
  absorbed_words : List String
  absorbed_trigrams : List (String × String × String)
  word_weights : List (String × ℚ)
  history : List AbsorptionRecord
  injections : List (String × String × String)

/-- `Lexicon.__init__`: empty absorbed state over a given tokenizer and
co-occurrence store.  (The `corpus_words` snapshot built by
`_build_corpus_vocabulary` is never consulted by absorb/decay/query and
is omitted.) -/
def Lexicon.init (encode : String → List Nat) (st : CooccurField)
    (decay_rate : ℚ) (min_word_length : Nat) : Lexicon :=
  { encode := encode, field := st, decay_rate := decay_rate,
    min_word_length := min_word_length, absorbed_words := [],
    absorbed_trigrams := [], word_weights := [], history := [],
    injections := [] }

/-- State threaded through the word loop of `absorb`:
(`absorbed_words`, `word_weights`, `new_words`). -/
structure WordState where
  aw : List String
  ww : List (String × ℚ)
  nw : List String

/-- One iteration of the word loop of `absorb`: a new word is added with
weight `boost` and recorded; a seen word is reinforced by
`min(2.0, self.word_weights.get(word, 1.0) + 0.1)`. -/
def absorbWordStep (boost : ℚ) (s : WordState) (word : String) : WordState :=
  if word ∈ s.aw then
    { s with ww := updateWeight s.ww word (reinforceWeight ((lookupW s.ww word).getD 1)) }
  else
    { aw := s.aw ++ [word], ww := updateWeight s.ww word boost, nw := s.nw ++ [word] }

/-- State threaded through the trigram loop of `absorb`:
(`absorbed_trigrams`, the store, `new_trigrams`, the ghost injection
log). -/
structure TriState where
  atri : List (String × String × String)
  st : CooccurField
  nt : List (String × String × String)
  inj : List (String × String × String)

/-- One iteration of the trigram loop of `absorb`: a seen trigram is
skipped; an unseen one is added, recorded and injected. -/
def absorbTriStep (encode : String → List Nat) (boost : ℚ)
    (s : TriState) (t : String × String × String) : TriState :=
  if t ∈ s.atri then s
  else
    { atri := s.atri ++ [t], st := injectTrigram encode s.st t boost,
      nt := s.nt ++ [t], inj := s.inj ++ [t] }

/-- `l[-n:]` — the last `n` elements of a list. -/
def lastN (n : Nat) (l : List α) : List α := (l.reverse.take n).reverse

/-- `Lexicon.absorb(text, source, boost)`.  `now` stands for the
`time.time()` timestamp.  Returns the updated lexicon and the
`AbsorptionRecord` the Python method returns. -/
def Lexicon.absorb (lex : Lexicon) (text source : String) (boost : ℚ)
    (now : ℚ) : Lexicon × AbsorptionRecord :=
  let words := extractWords lex.min_word_length text
  let trigrams := extractTrigrams text
  let ws := words.foldl (absorbWordStep boost)
    { aw := lex.absorbed_words, ww := lex.word_weights, nw := [] }
  let ts := trigrams.foldl (absorbTriStep lex.encode boost)
    { atri := lex.absorbed_trigrams, st := lex.field, nt := [], inj := lex.injections }
  let record : AbsorptionRecord :=
    { timestamp := now, source := source, words := ws.nw, trigrams := ts.nt }
  let hist0 := lex.history ++ [record]
  let hist := if 100 < hist0.length then lastN 100 hist0 else hist0
  ({ lex with
      absorbed_words := ws.aw, word_weights := ws.ww,
      absorbed_trigrams := ts.atri, field := ts.st, injections := ts.inj,
      history := hist }, record)

/-- `Lexicon.decay()`: multiply every weight by `decay_rate`, drop the
words whose new weight is strictly below `0.1` from both tracking
structures, return the number dropped. -/
def Lexicon.decay (lex : Lexicon) : Lexicon × Nat :=
  let updated := lex.word_weights.map (fun p => (p.1, p.2 * lex.decay_rate))
  let removedPairs := updated.filter (fun p => decide (p.2 < 1 / 10))
  let kept := updated.filter (fun p => !(decide (p.2 < 1 / 10)))
  let toRemove := removedPairs.map Prod.fst
  ({ lex with
      word_weights := kept,
      absorbed_words := lex.absorbed_words.filter (fun w => decide (¬ w ∈ toRemove)) },
   toRemove.length)

/-- `Lexicon.stats()`. -/
def Lexicon.stats (lex : Lexicon) : LexiconStats :=
  let sources := (lex.history.map (fun r => r.source)).dedup
  let growth_rate : ℚ :=
    if 2 ≤ lex.history.length then
      let recent := lastN 10 lex.history
      ((recent.map (fun r => (r.count : ℚ))).sum) / (recent.length : ℚ)
    else 0
  { total_words := lex.absorbed_words.length,
    total_trigrams := lex.absorbed_trigrams.length,
    unique_sources := sources.length,
    recent_absorptions := lex.history.length,
    growth_rate := growth_rate }

/-- One public mutating call against a `Lexicon` instance. -/
inductive LexOp where
  | absorbOp (text source : String) (boost now : ℚ)
  | decayOp
deriving DecidableEq

/-- Apply one call, discarding its return value. -/
def applyOp (lex : Lexicon) : LexOp → Lexicon
  | .absorbOp t s b n => (lex.absorb t s b n).1
  | .decayOp => lex.decay.1

/-- Run a call sequence against an instance. -/
def runOps (lex : Lexicon) (ops : List LexOp) : Lexicon :=
  ops.foldl applyOp lex

/-- The full (untruncated) sequence of records produced by a call
sequence — what "the entire history" of the instance denotes. -/
def runRecords (lex : Lexicon) : List LexOp → List AbsorptionRecord
  | [] => []
  | .absorbOp t s b n :: ops =>
    (lex.absorb t s b n).2 :: runRecords (lex.absorb t s b n).1 ops
  | .decayOp :: ops => runRecords lex.decay.1 ops

/-- The boost bound under which the weight-interval invariant is
stated: the call's boost lies in (0, 2]. -/
def LexOp.boostOK : LexOp → Prop
  | .absorbOp _ _ b _ => 0 < b ∧ b ≤ 2
  | .decayOp => True

/-- A concrete tokenizer for witnesses: one token per character. -/
def encA (s : String) : List Nat := s.data.map Char.toNat

/-- A concrete empty co-occurrence store for witnesses. -/
def stA : CooccurField :=
  { bigram_counts := fun _ _ => 0, trigram_counts := fun _ _ _ => 0 }

/-- A concrete store with every count 5, for decrement counterexamples. -/
def stB : CooccurField :=
  { bigram_counts := fun _ _ => 5, trigram_counts := fun _ _ _ => 5 }

/-- A concrete tokenizer that cannot encode the word "b": it returns the
empty token sequence for it. -/
def encB (s : String) : List Nat :=
  if s = ("b") then [] else s.data.map Char.toNat

end Haze

namespace Haze

/-! ## Association-list lemmas -/

theorem lookupW_updateWeight_self (l : List (String × ℚ)) (k : String) (v : ℚ) :
    lookupW (updateWeight l k v) k = some v := by
  induction l with
  | nil => simp [updateWeight, lookupW]
  | cons p ps ih =>
    by_cases h : p.1 = k
    · simp [updateWeight, h, lookupW]
    · simp [updateWeight, h, lookupW, ih]

theorem lookupW_updateWeight_ne (l : List (String × ℚ)) {k k' : String} (v : ℚ)
    (h : k' ≠ k) : lookupW (updateWeight l k v) k' = lookupW l k' := by
  induction l with
  | nil =>
    have hk : k ≠ k' := fun he => h he.symm
    simp [updateWeight, lookupW, hk]
  | cons p ps ih =>
    by_cases hp : p.1 = k
    · have hk : k ≠ k' := fun he => h he.symm
      simp [updateWeight, lookupW, hp, hk]
    · simp [updateWeight, lookupW, hp, ih]

theorem mem_updateWeight {l : List (String × ℚ)} {k : String} {v : ℚ}
    {p : String × ℚ} (h : p ∈ updateWeight l k v) : p = (k, v) ∨ p ∈ l := by
  induction l with
  | nil => simpa [updateWeight] using h
  | cons q qs ih =>
    by_cases hq : q.1 = k
    · simp only [updateWeight, hq, if_true, List.mem_cons] at h
      rcases h with h | h
      · exact Or.inl h
      · exact Or.inr (List.mem_cons_of_mem _ h)
    · simp only [updateWeight, hq, if_false, List.mem_cons] at h
      rcases h with h | h
      · exact Or.inr (List.mem_cons.mpr (Or.inl h))
      · rcases ih h with h2 | h2
        · exact Or.inl h2
        · exact Or.inr (List.mem_cons_of_mem _ h2)

theorem mem_keys_updateWeight {l : List (String × ℚ)} {k w : String} {v : ℚ} :
    w ∈ (updateWeight l k v).map Prod.fst ↔ w = k ∨ w ∈ l.map Prod.fst := by
  induction l with
  | nil => simp [updateWeight]
  | cons q qs ih =>
    by_cases hq : q.1 = k
    · simp only [updateWeight, hq, if_true, List.map_cons, List.mem_cons]
      constructor
      · rintro (h | h)
        · exact Or.inl h
        · exact Or.inr (Or.inr h)
      · rintro (h | h | h)
        · exact Or.inl h
        · exact Or.inl (hq ▸ h)
        · exact Or.inr h
    · simp only [updateWeight, hq, if_false, List.map_cons, List.mem_cons, ih]
      tauto

theorem nodup_keys_updateWeight {l : List (String × ℚ)} {k : String} {v : ℚ}
    (h : (l.map Prod.fst).Nodup) : ((updateWeight l k v).map Prod.fst).Nodup := by
  induction l with
  | nil => simp [updateWeight]
  | cons q qs ih =>
    simp only [List.map_cons, List.nodup_cons] at h
    by_cases hq : q.1 = k
    · simp only [updateWeight, hq, if_true, List.map_cons, List.nodup_cons]
      exact ⟨hq ▸ h.1, h.2⟩
    · simp only [updateWeight, hq, if_false, List.map_cons, List.nodup_cons]
      refine ⟨fun hmem => ?_, ih h.2⟩
      rcases mem_keys_updateWeight.mp hmem with h2 | h2
      · exact hq (h2 ▸ rfl)
      · exact h.1 h2

theorem lookupW_eq_some_mem {l : List (String × ℚ)} {k : String} {v : ℚ}
    (h : lookupW l k = some v) : (k, v) ∈ l := by
  induction l with
  | nil => simp [lookupW] at h
  | cons q qs ih =>
    by_cases hq : q.1 = k
    · simp only [lookupW, hq, if_true, Option.some.injEq] at h
      refine List.mem_cons.mpr (Or.inl ?_)
      cases q
      simp_all
    · simp only [lookupW, hq, if_false] at h
      exact List.mem_cons_of_mem _ (ih h)

theorem lookupW_isSome_of_mem_keys {l : List (String × ℚ)} {k : String}
    (h : k ∈ l.map Prod.fst) : ∃ v, lookupW l k = some v := by
  induction l with
  | nil => simp at h
  | cons q qs ih =>
    by_cases hq : q.1 = k
    · exact ⟨q.2, by simp [lookupW, hq]⟩
    · simp only [List.map_cons, List.mem_cons] at h
      rcases h with h | h
      · exact absurd h.symm hq
      · rcases ih h with ⟨v, hv⟩
        exact ⟨v, by simp [lookupW, hq, hv]⟩

theorem lookupW_of_mem_nodup {l : List (String × ℚ)} {k : String} {v : ℚ}
    (hnd : (l.map Prod.fst).Nodup) (h : (k, v) ∈ l) : lookupW l k = some v := by
  induction l with
  | nil => simp at h
  | cons q qs ih =>
    simp only [List.map_cons, List.nodup_cons] at hnd
    rcases List.mem_cons.mp h with h | h
    · simp [lookupW, ← h]
    · have hq : q.1 ≠ k := by
        intro he
        exact hnd.1 (he ▸ (List.mem_map.mpr ⟨(k, v), h, rfl⟩))
      simp [lookupW, hq, ih hnd.2 h]

/-! ## lastN lemmas -/

theorem length_lastN (n : Nat) (l : List α) : (lastN n l).length = min n l.length := by
  simp [lastN]

theorem lastN_of_length_le {n : Nat} {l : List α} (h : l.length ≤ n) :
    lastN n l = l := by
  have : l.reverse.length ≤ n := by simpa using h
  simp [lastN, List.take_of_length_le this]

theorem lastN_lastN_append (n : Nat) (xs ys : List α) :
    lastN n (lastN n xs ++ ys) = lastN n (xs ++ ys) := by
  simp only [lastN, List.reverse_append, List.reverse_reverse]
  rw [List.take_append_eq_append_take, List.take_append_eq_append_take, List.take_take,
    inf_eq_left.mpr (Nat.sub_le _ _)]

end Haze

namespace Haze

/-! ## injectTrigram lemmas -/

theorem injectTrigram_noop_of_unencodable (encode : String → List Nat)
    (st : CooccurField) (tri : String × String × String) (w : ℚ)
    (h : encode tri.1 = [] ∨ encode tri.2.1 = [] ∨ encode tri.2.2 = []) :
    injectTrigram encode st tri w = st := by
  simp only [injectTrigram]
  cases h1 : (encode tri.1).getLast? <;>
    cases h2 : (encode tri.2.1).head? <;>
      cases h3 : (encode tri.2.1).getLast? <;>
        cases h4 : (encode tri.2.2).head? <;>
          try rfl
  exfalso
  rcases h with h | h | h
  · rw [h] at h1
    simp at h1
  · rw [h] at h2
    simp at h2
  · rw [h] at h4
    simp at h4

theorem injectTrigram_bigram_le (encode : String → List Nat) (st : CooccurField)
    (tri : String × String × String) (w : ℚ) (hw : 0 ≤ truncInt w) (a b : Nat) :
    st.bigram_counts a b ≤ (injectTrigram encode st tri w).bigram_counts a b := by
  simp only [injectTrigram]
  cases h1 : (encode tri.1).getLast? <;>
    cases h2 : (encode tri.2.1).head? <;>
      cases h3 : (encode tri.2.1).getLast? <;>
        cases h4 : (encode tri.2.2).head? <;>
          try exact le_rfl
  dsimp only
  split_ifs <;> linarith

theorem injectTrigram_trigram_le (encode : String → List Nat) (st : CooccurField)
    (tri : String × String × String) (w : ℚ) (hw : 0 ≤ truncInt w) (a b c : Nat) :
    st.trigram_counts a b c ≤ (injectTrigram encode st tri w).trigram_counts a b c := by
  simp only [injectTrigram]
  cases h1 : (encode tri.1).getLast? <;>
    cases h2 : (encode tri.2.1).head? <;>
      cases h3 : (encode tri.2.1).getLast? <;>
        cases h4 : (encode tri.2.2).head? <;>
          try exact le_rfl
  dsimp only
  split_ifs <;> linarith

theorem injectTrigram_eq_of_trunc_zero (encode : String → List Nat)
    (st : CooccurField) (tri : String × String × String) (w : ℚ)
    (h : truncInt w = 0) : injectTrigram encode st tri w = st := by
  simp only [injectTrigram, h, add_zero]
  cases h1 : (encode tri.1).getLast? <;>
    cases h2 : (encode tri.2.1).head? <;>
      cases h3 : (encode tri.2.1).getLast? <;>
        cases h4 : (encode tri.2.2).head? <;>
          try rfl
  simp only [ite_self]

theorem injectTrigram_counts (encode : String → List Nat) (st : CooccurField)
    (tri : String × String × String) (w : ℚ) {l1 f2 l2 f3 : Nat}
    (h1 : (encode tri.1).getLast? = some l1) (h2 : (encode tri.2.1).head? = some f2)
    (h3 : (encode tri.2.1).getLast? = some l2) (h4 : (encode tri.2.2).head? = some f3)
    (hne : (l1, f2) ≠ (l2, f3)) :
    (injectTrigram encode st tri w).bigram_counts l1 f2
        = st.bigram_counts l1 f2 + truncInt w ∧
      (injectTrigram encode st tri w).bigram_counts l2 f3
        = st.bigram_counts l2 f3 + truncInt w ∧
      (injectTrigram encode st tri w).trigram_counts l1 f2 l2
        = st.trigram_counts l1 f2 l2 + truncInt w := by
  have hA : ¬ (l1 = l2 ∧ f2 = f3) := by
    rintro ⟨u, v⟩
    exact hne (by rw [u, v])
  have hB : ¬ (l2 = l1 ∧ f3 = f2) := by
    rintro ⟨u, v⟩
    exact hne (by rw [u, v])
  simp only [injectTrigram, h1, h2, h3, h4]
  refine ⟨?_, ?_, ?_⟩ <;> simp [hA, hB]

end Haze

namespace Haze

/-! ## Trigram-loop fold lemmas -/

theorem triFold_atri_mono (encode : String → List Nat) (boost : ℚ)
    (l : List (String × String × String)) (s : TriState)
    {t : String × String × String} (h : t ∈ s.atri) :
    t ∈ (l.foldl (absorbTriStep encode boost) s).atri := by
  induction l generalizing s with
  | nil => exact h
  | cons x xs ih =>
    rw [List.foldl_cons]
    refine ih _ ?_
    by_cases hc : x ∈ s.atri
    · simpa [absorbTriStep, hc] using h
    · simp [absorbTriStep, hc, h]

theorem triFold_nt_mono (encode : String → List Nat) (boost : ℚ)
    (l : List (String × String × String)) (s : TriState)
    {t : String × String × String} (h : t ∈ s.nt) :
    t ∈ (l.foldl (absorbTriStep encode boost) s).nt := by
  induction l generalizing s with
  | nil => exact h
  | cons x xs ih =>
    rw [List.foldl_cons]
    refine ih _ ?_
    by_cases hc : x ∈ s.atri
    · simpa [absorbTriStep, hc] using h
    · simp [absorbTriStep, hc, h]

theorem triFold_new (encode : String → List Nat) (boost : ℚ)
    (l : List (String × String × String)) (s : TriState)
    {t : String × String × String} (hl : t ∈ l) (ha : t ∉ s.atri) :
    t ∈ (l.foldl (absorbTriStep encode boost) s).nt ∧
      t ∈ (l.foldl (absorbTriStep encode boost) s).atri := by
  induction l generalizing s with
  | nil => simp at hl
  | cons x xs ih =>
    rw [List.foldl_cons]
    by_cases hx : x = t
    · subst hx
      have hstep : (absorbTriStep encode boost s x).nt = s.nt ++ [x] ∧
          (absorbTriStep encode boost s x).atri = s.atri ++ [x] := by
        simp [absorbTriStep, ha]
      constructor
      · exact triFold_nt_mono encode boost xs _ (by simp [hstep.1])
      · exact triFold_atri_mono encode boost xs _ (by simp [hstep.2])
    · have hl2 : t ∈ xs := by
        rcases List.mem_cons.mp hl with h | h
        · exact absurd h.symm hx
        · exact h
      refine ih _ hl2 ?_
      by_cases hc : x ∈ s.atri
      · simpa [absorbTriStep, hc] using ha
      · simp only [absorbTriStep, hc, if_false]
        intro hmem
        rcases List.mem_append.mp hmem with h | h
        · exact ha h
        · exact hx (List.mem_singleton.mp h).symm

theorem triFold_stable (encode : String → List Nat) (boost : ℚ)
    (l : List (String × String × String)) (s : TriState)
    {t : String × String × String} (h : t ∈ s.atri) :
    (l.foldl (absorbTriStep encode boost) s).inj.count t = s.inj.count t ∧
      ((l.foldl (absorbTriStep encode boost) s).nt.count t = s.nt.count t) := by
  induction l generalizing s with
  | nil => exact ⟨rfl, rfl⟩
  | cons x xs ih =>
    rw [List.foldl_cons]
    by_cases hc : x ∈ s.atri
    · have hs : absorbTriStep encode boost s x = s := by simp [absorbTriStep, hc]
      rw [hs]
      exact ih _ h
    · have hxt : x ≠ t := fun he => hc (he ▸ h)
      have h2 : t ∈ (absorbTriStep encode boost s x).atri := by
        simp [absorbTriStep, hc, h]
      have := ih _ h2
      have hcnt : (absorbTriStep encode boost s x).inj.count t = s.inj.count t ∧
          (absorbTriStep encode boost s x).nt.count t = s.nt.count t := by
        constructor <;>
        · simp only [absorbTriStep, hc, if_false]
          rw [List.count_append]
          simp [List.count_singleton, hxt]
      exact ⟨this.1.trans hcnt.1, this.2.trans hcnt.2⟩

theorem triFold_inj_inv (encode : String → List Nat) (boost : ℚ)
    (l : List (String × String × String)) (s : TriState)
    (h : ∀ u, s.inj.count u = if u ∈ s.atri then 1 else 0) :
    ∀ u, (l.foldl (absorbTriStep encode boost) s).inj.count u =
      if u ∈ (l.foldl (absorbTriStep encode boost) s).atri then 1 else 0 := by
  induction l generalizing s with
  | nil => exact h
  | cons x xs ih =>
    rw [List.foldl_cons]
    refine ih _ ?_
    intro u
    by_cases hc : x ∈ s.atri
    · simpa [absorbTriStep, hc] using h u
    · simp only [absorbTriStep, hc, if_false]
      by_cases hu : u = x
      · subst hu
        have h0 : s.inj.count u = 0 := by simpa [hc] using h u
        simp [List.count_append, h0]
      · have hxu : x ≠ u := fun he => hu he.symm
        have : List.count u (s.inj ++ [x]) = s.inj.count u := by
          rw [List.count_append]
          simp [List.count_singleton, hxu]
        simp only [this]
        have hmem : (u ∈ s.atri ++ [x]) ↔ u ∈ s.atri := by
          simp [hu]
        simp only [List.mem_append] at hmem ⊢
        rw [if_congr hmem rfl rfl]
        exact h u

theorem triFold_store_le (encode : String → List Nat) (boost : ℚ)
    (hw : 0 ≤ truncInt boost) (l : List (String × String × String)) (s : TriState) :
    (∀ a b, s.st.bigram_counts a b ≤
        (l.foldl (absorbTriStep encode boost) s).st.bigram_counts a b) ∧
      (∀ a b c, s.st.trigram_counts a b c ≤
        (l.foldl (absorbTriStep encode boost) s).st.trigram_counts a b c) := by
  induction l generalizing s with
  | nil => exact ⟨fun _ _ => le_rfl, fun _ _ _ => le_rfl⟩
  | cons x xs ih =>
    rw [List.foldl_cons]
    by_cases hc : x ∈ s.atri
    · have hs : absorbTriStep encode boost s x = s := by simp [absorbTriStep, hc]
      rw [hs]
      exact ih s
    · rcases ih (absorbTriStep encode boost s x) with ⟨ihb, iht⟩
      have hb : (absorbTriStep encode boost s x).st = injectTrigram encode s.st x boost := by
        simp [absorbTriStep, hc]
      constructor
      · intro a b
        refine le_trans ?_ (ihb a b)
        rw [hb]
        exact injectTrigram_bigram_le encode s.st x boost hw a b
      · intro a b c
        refine le_trans ?_ (iht a b c)
        rw [hb]
        exact injectTrigram_trigram_le encode s.st x boost hw a b c

theorem triFold_store_eq (encode : String → List Nat) (boost : ℚ)
    (hw : truncInt boost = 0) (l : List (String × String × String)) (s : TriState) :
    (l.foldl (absorbTriStep encode boost) s).st = s.st := by
  induction l generalizing s with
  | nil => rfl
  | cons x xs ih =>
    rw [List.foldl_cons, ih]
    by_cases hc : x ∈ s.atri
    · simp [absorbTriStep, hc]
    · simp [absorbTriStep, hc, injectTrigram_eq_of_trunc_zero encode s.st x boost hw]

end Haze

namespace Haze

/-! ## Word-loop fold lemmas -/

theorem wordFold_aw_mono (boost : ℚ) (l : List String) (s : WordState)
    {w : String} (h : w ∈ s.aw) :
    w ∈ (l.foldl (absorbWordStep boost) s).aw := by
  induction l generalizing s with
  | nil => exact h
  | cons x xs ih =>
    rw [List.foldl_cons]
    refine ih _ ?_
    by_cases hc : x ∈ s.aw
    · simpa [absorbWordStep, hc] using h
    · simp [absorbWordStep, hc, h]

theorem wordFold_nw_mono (boost : ℚ) (l : List String) (s : WordState)
    {w : String} (h : w ∈ s.nw) :
    w ∈ (l.foldl (absorbWordStep boost) s).nw := by
  induction l generalizing s with
  | nil => exact h
  | cons x xs ih =>
    rw [List.foldl_cons]
    refine ih _ ?_
    by_cases hc : x ∈ s.aw
    · simpa [absorbWordStep, hc] using h
    · simp [absorbWordStep, hc, h]

theorem wordFold_untouched (boost : ℚ) (l : List String) (s : WordState)
    {w : String} (h : w ∉ l) :
    lookupW (l.foldl (absorbWordStep boost) s).ww w = lookupW s.ww w ∧
      (w ∈ (l.foldl (absorbWordStep boost) s).aw ↔ w ∈ s.aw) ∧
      (w ∈ (l.foldl (absorbWordStep boost) s).nw ↔ w ∈ s.nw) := by
  induction l generalizing s with
  | nil => exact ⟨rfl, Iff.rfl, Iff.rfl⟩
  | cons x xs ih =>
    rw [List.foldl_cons]
    have hx : w ≠ x := fun he => h (he ▸ List.mem_cons_self x xs)
    have h2 : w ∉ xs := fun hm => h (List.mem_cons_of_mem x hm)
    rcases ih (absorbWordStep boost s x) h2 with ⟨i1, i2, i3⟩
    refine ⟨i1.trans ?_, i2.trans ?_, i3.trans ?_⟩
    · by_cases hc : x ∈ s.aw
      · simp [absorbWordStep, hc, lookupW_updateWeight_ne _ _ hx]
      · simp [absorbWordStep, hc, lookupW_updateWeight_ne _ _ hx]
    · by_cases hc : x ∈ s.aw
      · simp [absorbWordStep, hc]
      · simp [absorbWordStep, hc, hx]
    · by_cases hc : x ∈ s.aw
      · simp [absorbWordStep, hc]
      · simp [absorbWordStep, hc, hx]

theorem wordFold_insert (boost : ℚ) (l : List String) (s : WordState)
    {w : String} (ha : w ∉ s.aw) (hc : l.count w = 1) :
    w ∈ (l.foldl (absorbWordStep boost) s).nw ∧
      lookupW (l.foldl (absorbWordStep boost) s).ww w = some boost ∧
      w ∈ (l.foldl (absorbWordStep boost) s).aw := by
  induction l generalizing s with
  | nil => simp at hc
  | cons x xs ih =>
    rw [List.foldl_cons]
    by_cases hx : x = w
    · subst hx
      have hc0 : xs.count x = 0 := by
        have := List.count_cons_self x xs
        omega
      have hnot : x ∉ xs := List.count_eq_zero.mp hc0
      have hstep : (absorbWordStep boost s x).nw = s.nw ++ [x] ∧
          lookupW (absorbWordStep boost s x).ww x = some boost ∧
          (absorbWordStep boost s x).aw = s.aw ++ [x] := by
        refine ⟨by simp [absorbWordStep, ha], ?_, by simp [absorbWordStep, ha]⟩
        simp [absorbWordStep, ha, lookupW_updateWeight_self]
      rcases wordFold_untouched boost xs (absorbWordStep boost s x) hnot with ⟨u1, u2, u3⟩
      refine ⟨?_, ?_, ?_⟩
      · exact wordFold_nw_mono boost xs _ (by simp [hstep.1])
      · exact u1.trans hstep.2.1
      · exact wordFold_aw_mono boost xs _ (by simp [hstep.2.2])
    · have hc2 : xs.count w = 1 := by
        have := List.count_cons w x xs
        simp [fun he : x = w => hx he] at this
        omega
      refine ih _ ?_ hc2
      by_cases hm : x ∈ s.aw
      · simpa [absorbWordStep, hm] using ha
      · simp only [absorbWordStep, hm, if_false]
        intro hmem
        rcases List.mem_append.mp hmem with hh | hh
        · exact ha hh
        · exact hx (List.mem_singleton.mp hh).symm

theorem wordFold_reinforce (boost : ℚ) (l : List String) (s : WordState)
    {w : String} {wt : ℚ} (ha : w ∈ s.aw) (hl : lookupW s.ww w = some wt)
    (hc : l.count w = 1) :
    lookupW (l.foldl (absorbWordStep boost) s).ww w = some (reinforceWeight wt) := by
  induction l generalizing s wt with
  | nil => simp at hc
  | cons x xs ih =>
    rw [List.foldl_cons]
    by_cases hx : x = w
    · subst hx
      have hc0 : xs.count x = 0 := by
        have := List.count_cons_self x xs
        omega
      have hnot : x ∉ xs := List.count_eq_zero.mp hc0
      have hstep : lookupW (absorbWordStep boost s x).ww x = some (reinforceWeight wt) := by
        simp [absorbWordStep, ha, hl, lookupW_updateWeight_self]
      exact (wordFold_untouched boost xs _ hnot).1.trans hstep
    · have hc2 : xs.count w = 1 := by
        have := List.count_cons w x xs
        simp [fun he : x = w => hx he] at this
        omega
      by_cases hm : x ∈ s.aw
      · refine ih _ ?_ ?_ hc2
        · simpa [absorbWordStep, hm] using ha
        · have hwx : w ≠ x := fun he => hx he.symm
          simpa [absorbWordStep, hm, lookupW_updateWeight_ne _ _ hwx] using hl
      · refine ih _ ?_ ?_ hc2
        · simp [absorbWordStep, hm, ha]
        · have hwx : w ≠ x := fun he => hx he.symm
          simpa [absorbWordStep, hm, lookupW_updateWeight_ne _ _ hwx] using hl

end Haze

namespace Haze

/-! ## absorb unfolding equations -/

theorem absorb_fst_ww (lex : Lexicon) (text src : String) (boost now : ℚ) :
    (lex.absorb text src boost now).1.word_weights =
      ((extractWords lex.min_word_length text).foldl (absorbWordStep boost)
        { aw := lex.absorbed_words, ww := lex.word_weights, nw := [] }).ww := rfl

theorem absorb_fst_aw (lex : Lexicon) (text src : String) (boost now : ℚ) :
    (lex.absorb text src boost now).1.absorbed_words =
      ((extractWords lex.min_word_length text).foldl (absorbWordStep boost)
        { aw := lex.absorbed_words, ww := lex.word_weights, nw := [] }).aw := rfl

theorem absorb_snd_words (lex : Lexicon) (text src : String) (boost now : ℚ) :
    (lex.absorb text src boost now).2.words =
      ((extractWords lex.min_word_length text).foldl (absorbWordStep boost)
        { aw := lex.absorbed_words, ww := lex.word_weights, nw := [] }).nw := rfl

theorem absorb_fst_atri (lex : Lexicon) (text src : String) (boost now : ℚ) :
    (lex.absorb text src boost now).1.absorbed_trigrams =
      ((extractTrigrams text).foldl (absorbTriStep lex.encode boost)
        { atri := lex.absorbed_trigrams, st := lex.field, nt := [],
          inj := lex.injections }).atri := rfl

theorem absorb_fst_field (lex : Lexicon) (text src : String) (boost now : ℚ) :
    (lex.absorb text src boost now).1.field =
      ((extractTrigrams text).foldl (absorbTriStep lex.encode boost)
        { atri := lex.absorbed_trigrams, st := lex.field, nt := [],
          inj := lex.injections }).st := rfl

theorem absorb_fst_inj (lex : Lexicon) (text src : String) (boost now : ℚ) :
    (lex.absorb text src boost now).1.injections =
      ((extractTrigrams text).foldl (absorbTriStep lex.encode boost)
        { atri := lex.absorbed_trigrams, st := lex.field, nt := [],
          inj := lex.injections }).inj := rfl

theorem absorb_snd_trigrams (lex : Lexicon) (text src : String) (boost now : ℚ) :
    (lex.absorb text src boost now).2.trigrams =
      ((extractTrigrams text).foldl (absorbTriStep lex.encode boost)
        { atri := lex.absorbed_trigrams, st := lex.field, nt := [],
          inj := lex.injections }).nt := rfl

theorem absorb_fst_history (lex : Lexicon) (text src : String) (boost now : ℚ) :
    (lex.absorb text src boost now).1.history =
      (if 100 < (lex.history ++ [(lex.absorb text src boost now).2]).length
        then lastN 100 (lex.history ++ [(lex.absorb text src boost now).2])
        else lex.history ++ [(lex.absorb text src boost now).2]) := rfl

theorem absorb_fixed (lex : Lexicon) (text src : String) (boost now : ℚ) :
    (lex.absorb text src boost now).1.encode = lex.encode ∧
      (lex.absorb text src boost now).1.decay_rate = lex.decay_rate ∧
      (lex.absorb text src boost now).1.min_word_length = lex.min_word_length :=
  ⟨rfl, rfl, rfl⟩

theorem decay_fixed (lex : Lexicon) :
    lex.decay.1.encode = lex.encode ∧ lex.decay.1.decay_rate = lex.decay_rate ∧
      lex.decay.1.min_word_length = lex.min_word_length ∧
      lex.decay.1.history = lex.history ∧
      lex.decay.1.absorbed_trigrams = lex.absorbed_trigrams ∧
      lex.decay.1.injections = lex.injections ∧ lex.decay.1.field = lex.field :=
  ⟨rfl, rfl, rfl, rfl, rfl, rfl, rfl⟩

/-! ## decay lemmas -/

theorem keys_unique {l : List (String × ℚ)} (hnd : (l.map Prod.fst).Nodup)
    {k : String} {a b : ℚ} (h1 : (k, a) ∈ l) (h2 : (k, b) ∈ l) : a = b := by
  have e1 := lookupW_of_mem_nodup hnd h1
  have e2 := lookupW_of_mem_nodup hnd h2
  rw [e1] at e2
  exact Option.some.inj e2

theorem decay_snd (lex : Lexicon) :
    lex.decay.2 = ((lex.word_weights.map (fun p => (p.1, p.2 * lex.decay_rate))).filter
      (fun p => decide (p.2 < 1 / 10))).length := by
  show (((lex.word_weights.map (fun p => (p.1, p.2 * lex.decay_rate))).filter
    (fun p => decide (p.2 < 1 / 10))).map Prod.fst).length = _
  rw [List.length_map]

theorem decay_fst_ww (lex : Lexicon) :
    lex.decay.1.word_weights = (lex.word_weights.map
      (fun p => (p.1, p.2 * lex.decay_rate))).filter
        (fun p => !(decide (p.2 < 1 / 10))) := rfl

theorem decay_fst_aw (lex : Lexicon) :
    lex.decay.1.absorbed_words = lex.absorbed_words.filter
      (fun w => decide (¬ w ∈ ((lex.word_weights.map
        (fun p => (p.1, p.2 * lex.decay_rate))).filter
          (fun p => decide (p.2 < 1 / 10))).map Prod.fst)) := rfl

theorem length_filter_split (l : List α) (f : α → Bool) :
    (l.filter f).length + (l.filter (fun a => !(f a))).length = l.length := by
  induction l with
  | nil => rfl
  | cons x xs ih =>
    by_cases hx : f x = true
    · simp [List.filter_cons, hx, ih]
      omega
    · have hx2 : f x = false := by
        cases hf : f x
        · rfl
        · exact absurd hf hx
      simp [List.filter_cons, hx2, ih]
      omega

theorem decay_removed_count (lex : Lexicon) :
    lex.decay.2 = lex.word_weights.length - lex.decay.1.word_weights.length ∧
      lex.decay.1.word_weights.length ≤ lex.word_weights.length := by
  have hsplit := length_filter_split
    (lex.word_weights.map (fun p => (p.1, p.2 * lex.decay_rate)))
    (fun p => decide (p.2 < 1 / 10))
  rw [List.length_map] at hsplit
  rw [decay_snd, decay_fst_ww]
  omega

theorem mem_decay_ww_iff {lex : Lexicon} {w : String} {v : ℚ} :
    (w, v) ∈ lex.decay.1.word_weights ↔
      ∃ wt, (w, wt) ∈ lex.word_weights ∧ v = wt * lex.decay_rate ∧
        ¬ (wt * lex.decay_rate < 1 / 10) := by
  rw [decay_fst_ww]
  constructor
  · intro h
    rcases List.mem_filter.mp h with ⟨hm, hp⟩
    rcases List.mem_map.mp hm with ⟨q, hq, he⟩
    have h1 : q.1 = w := congrArg Prod.fst he
    have h2 : q.2 * lex.decay_rate = v := congrArg Prod.snd he
    refine ⟨q.2, by rw [← h1]; exact hq, h2.symm, ?_⟩
    rw [h2]
    simpa using hp
  · rintro ⟨wt, hm, he, hk⟩
    refine List.mem_filter.mpr ⟨?_, by simpa [he] using hk⟩
    exact List.mem_map.mpr ⟨(w, wt), hm, by simp [he]⟩

theorem mem_decay_keys_iff {lex : Lexicon} {w : String} :
    w ∈ lex.decay.1.word_weights.map Prod.fst ↔
      ∃ wt, (w, wt) ∈ lex.word_weights ∧ ¬ (wt * lex.decay_rate < 1 / 10) := by
  constructor
  · intro h
    rcases List.mem_map.mp h with ⟨q, hq, he⟩
    have hq2 : (w, q.2) ∈ lex.decay.1.word_weights := by
      have he2 : q = (w, q.2) := by
        cases q
        simp_all
      exact he2 ▸ hq
    rcases mem_decay_ww_iff.mp hq2 with ⟨wt, hm, _, hk⟩
    exact ⟨wt, hm, hk⟩
  · rintro ⟨wt, hm, hk⟩
    exact List.mem_map.mpr ⟨(w, wt * lex.decay_rate),
      mem_decay_ww_iff.mpr ⟨wt, hm, rfl, hk⟩, rfl⟩

theorem mem_decay_toRemove_iff {lex : Lexicon} {w : String} :
    w ∈ ((lex.word_weights.map (fun p => (p.1, p.2 * lex.decay_rate))).filter
      (fun p => decide (p.2 < 1 / 10))).map Prod.fst ↔
      ∃ wt, (w, wt) ∈ lex.word_weights ∧ wt * lex.decay_rate < 1 / 10 := by
  constructor
  · intro h
    rcases List.mem_map.mp h with ⟨q, hq, he⟩
    rcases List.mem_filter.mp hq with ⟨hm, hp⟩
    rcases List.mem_map.mp hm with ⟨r, hr, he2⟩
    rcases r with ⟨r1, r2⟩
    have hq1 : q.1 = r1 := by rw [← he2]
    have hq2 : q.2 = r2 * lex.decay_rate := by rw [← he2]
    refine ⟨r2, ?_, ?_⟩
    · have hr1 : r1 = w := by rw [← hq1, he]
      rw [← hr1]
      exact hr
    · rw [← hq2]
      exact of_decide_eq_true hp
  · rintro ⟨wt, hm, hlt⟩
    refine List.mem_map.mpr ⟨(w, wt * lex.decay_rate), ?_, rfl⟩
    exact List.mem_filter.mpr ⟨List.mem_map.mpr ⟨(w, wt), hm, rfl⟩, by simpa using hlt⟩

theorem mem_decay_aw_iff {lex : Lexicon} {w : String} :
    w ∈ lex.decay.1.absorbed_words ↔ w ∈ lex.absorbed_words ∧
      ¬ ∃ wt, (w, wt) ∈ lex.word_weights ∧ wt * lex.decay_rate < 1 / 10 := by
  rw [decay_fst_aw]
  rw [List.mem_filter]
  constructor
  · rintro ⟨h1, h2⟩
    refine ⟨h1, ?_⟩
    intro hex
    have := of_decide_eq_true h2
    exact this (mem_decay_toRemove_iff.mpr hex)
  · rintro ⟨h1, h2⟩
    refine ⟨h1, decide_eq_true ?_⟩
    intro hmem
    exact h2 (mem_decay_toRemove_iff.mp hmem)

theorem nodup_keys_decay {lex : Lexicon}
    (hnd : (lex.word_weights.map Prod.fst).Nodup) :
    (lex.decay.1.word_weights.map Prod.fst).Nodup := by
  rw [decay_fst_ww]
  have hsub : List.Sublist ((lex.word_weights.map
      (fun p => (p.1, p.2 * lex.decay_rate))).filter (fun p => !(decide (p.2 < 1 / 10))))
        (lex.word_weights.map (fun p => (p.1, p.2 * lex.decay_rate))) :=
    List.filter_sublist _
  have hmap := hsub.map Prod.fst
  have hkeys : (lex.word_weights.map (fun p => (p.1, p.2 * lex.decay_rate))).map Prod.fst
      = lex.word_weights.map Prod.fst := by
    rw [List.map_map]
    rfl
  rw [hkeys] at hmap
  exact hnd.sublist hmap

end Haze

namespace Haze

/-! ## Weight-invariant preservation -/

theorem wordStep_inv (boost : ℚ) (word : String) (s : WordState)
    (hb1 : 0 < boost) (hb2 : boost ≤ 2)
    (h1 : ∀ p ∈ s.ww, 0 < p.2 ∧ p.2 ≤ 2)
    (h2 : ∀ x, x ∈ s.aw ↔ x ∈ s.ww.map Prod.fst)
    (h3 : (s.ww.map Prod.fst).Nodup) :
    (∀ p ∈ (absorbWordStep boost s word).ww, 0 < p.2 ∧ p.2 ≤ 2) ∧
      (∀ x, x ∈ (absorbWordStep boost s word).aw ↔
        x ∈ (absorbWordStep boost s word).ww.map Prod.fst) ∧
      ((absorbWordStep boost s word).ww.map Prod.fst).Nodup := by
  by_cases hm : word ∈ s.aw
  · rcases lookupW_isSome_of_mem_keys ((h2 word).mp hm) with ⟨v, hv⟩
    have hmem : (word, v) ∈ s.ww := lookupW_eq_some_mem hv
    have hvb := h1 _ hmem
    have hrb : 0 < reinforceWeight v ∧ reinforceWeight v ≤ 2 := by
      constructor
      · refine lt_min (by norm_num) (by linarith [hvb.1])
      · exact min_le_left _ _
    simp only [absorbWordStep, hm, if_true, hv, Option.getD_some]
    refine ⟨?_, ?_, nodup_keys_updateWeight h3⟩
    · intro p hp
      rcases mem_updateWeight hp with he | hin
      · rw [he]
        exact hrb
      · exact h1 _ hin
    · intro x
      rw [mem_keys_updateWeight]
      constructor
      · intro hx
        exact Or.inr ((h2 x).mp hx)
      · rintro (rfl | hk)
        · exact hm
        · exact (h2 x).mpr hk
  · simp only [absorbWordStep, hm, if_false]
    refine ⟨?_, ?_, nodup_keys_updateWeight h3⟩
    · intro p hp
      rcases mem_updateWeight hp with he | hin
      · rw [he]
        exact ⟨hb1, hb2⟩
      · exact h1 _ hin
    · intro x
      rw [mem_keys_updateWeight]
      simp only [List.mem_append, List.mem_singleton]
      rw [h2 x]
      tauto

theorem wordFold_inv (boost : ℚ) (l : List String) (s : WordState)
    (hb1 : 0 < boost) (hb2 : boost ≤ 2)
    (h1 : ∀ p ∈ s.ww, 0 < p.2 ∧ p.2 ≤ 2)
    (h2 : ∀ x, x ∈ s.aw ↔ x ∈ s.ww.map Prod.fst)
    (h3 : (s.ww.map Prod.fst).Nodup) :
    (∀ p ∈ (l.foldl (absorbWordStep boost) s).ww, 0 < p.2 ∧ p.2 ≤ 2) ∧
      (∀ x, x ∈ (l.foldl (absorbWordStep boost) s).aw ↔
        x ∈ (l.foldl (absorbWordStep boost) s).ww.map Prod.fst) ∧
      ((l.foldl (absorbWordStep boost) s).ww.map Prod.fst).Nodup := by
  induction l generalizing s with
  | nil => exact ⟨h1, h2, h3⟩
  | cons x xs ih =>
    rw [List.foldl_cons]
    rcases wordStep_inv boost x s hb1 hb2 h1 h2 h3 with ⟨g1, g2, g3⟩
    exact ih _ g1 g2 g3

theorem absorb_preserves_inv (lex : Lexicon) (text src : String) (boost now : ℚ)
    (hb1 : 0 < boost) (hb2 : boost ≤ 2)
    (h1 : ∀ p ∈ lex.word_weights, 0 < p.2 ∧ p.2 ≤ 2)
    (h2 : ∀ x, x ∈ lex.absorbed_words ↔ x ∈ lex.word_weights.map Prod.fst)
    (h3 : (lex.word_weights.map Prod.fst).Nodup) :
    (∀ p ∈ (lex.absorb text src boost now).1.word_weights, 0 < p.2 ∧ p.2 ≤ 2) ∧
      (∀ x, x ∈ (lex.absorb text src boost now).1.absorbed_words ↔
        x ∈ (lex.absorb text src boost now).1.word_weights.map Prod.fst) ∧
      ((lex.absorb text src boost now).1.word_weights.map Prod.fst).Nodup := by
  rw [absorb_fst_ww, absorb_fst_aw]
  exact wordFold_inv boost (extractWords lex.min_word_length text)
    { aw := lex.absorbed_words, ww := lex.word_weights, nw := [] } hb1 hb2 h1 h2 h3

theorem decay_preserves_inv (lex : Lexicon)
    (hr1 : 0 < lex.decay_rate) (hr2 : lex.decay_rate ≤ 1)
    (h1 : ∀ p ∈ lex.word_weights, 0 < p.2 ∧ p.2 ≤ 2)
    (h2 : ∀ x, x ∈ lex.absorbed_words ↔ x ∈ lex.word_weights.map Prod.fst)
    (h3 : (lex.word_weights.map Prod.fst).Nodup) :
    (∀ p ∈ lex.decay.1.word_weights, 0 < p.2 ∧ p.2 ≤ 2) ∧
      (∀ x, x ∈ lex.decay.1.absorbed_words ↔
        x ∈ lex.decay.1.word_weights.map Prod.fst) ∧
      (lex.decay.1.word_weights.map Prod.fst).Nodup := by
  refine ⟨?_, ?_, nodup_keys_decay h3⟩
  · rintro ⟨w, v⟩ hp
    rcases mem_decay_ww_iff.mp hp with ⟨wt, hm, he, hk⟩
    have hwtb := h1 _ hm
    subst he
    simp only at hwtb
    constructor
    · show (0:ℚ) < wt * lex.decay_rate
      simp only [not_lt] at hk
      linarith
    · show wt * lex.decay_rate ≤ 2
      nlinarith [hwtb.1, hwtb.2]
  · intro x
    rw [mem_decay_aw_iff, mem_decay_keys_iff]
    constructor
    · rintro ⟨hin, hnex⟩
      rcases lookupW_isSome_of_mem_keys ((h2 x).mp hin) with ⟨v, hv⟩
      have hmem : (x, v) ∈ lex.word_weights := lookupW_eq_some_mem hv
      refine ⟨v, hmem, fun hlt => hnex ⟨v, hmem, hlt⟩⟩
    · rintro ⟨wt, hm, hk⟩
      refine ⟨(h2 x).mpr (List.mem_map.mpr ⟨(x, wt), hm, rfl⟩), ?_⟩
      rintro ⟨wt2, hm2, hlt2⟩
      exact hk (keys_unique h3 hm hm2 ▸ hlt2)

theorem applyOp_decay_rate (lex : Lexicon) (op : LexOp) :
    (applyOp lex op).decay_rate = lex.decay_rate := by
  cases op <;> rfl

theorem runOps_inv (ops : List LexOp) (lex : Lexicon)
    (hr1 : 0 < lex.decay_rate) (hr2 : lex.decay_rate ≤ 1)
    (hops : ∀ op ∈ ops, op.boostOK)
    (h1 : ∀ p ∈ lex.word_weights, 0 < p.2 ∧ p.2 ≤ 2)
    (h2 : ∀ x, x ∈ lex.absorbed_words ↔ x ∈ lex.word_weights.map Prod.fst)
    (h3 : (lex.word_weights.map Prod.fst).Nodup) :
    (∀ p ∈ (runOps lex ops).word_weights, 0 < p.2 ∧ p.2 ≤ 2) ∧
      (∀ x, x ∈ (runOps lex ops).absorbed_words ↔
        x ∈ (runOps lex ops).word_weights.map Prod.fst) ∧
      ((runOps lex ops).word_weights.map Prod.fst).Nodup := by
  induction ops generalizing lex with
  | nil => exact ⟨h1, h2, h3⟩
  | cons op ops ih =>
    have hop := hops op (List.mem_cons_self op ops)
    have hrest : ∀ o ∈ ops, o.boostOK := fun o ho => hops o (List.mem_cons_of_mem op ho)
    show (∀ p ∈ (runOps (applyOp lex op) ops).word_weights, 0 < p.2 ∧ p.2 ≤ 2) ∧ _
    have hr1o : 0 < (applyOp lex op).decay_rate := by rw [applyOp_decay_rate]; exact hr1
    have hr2o : (applyOp lex op).decay_rate ≤ 1 := by rw [applyOp_decay_rate]; exact hr2
    cases op with
    | absorbOp t s b n =>
      rcases hop with ⟨hb1, hb2⟩
      rcases absorb_preserves_inv lex t s b n hb1 hb2 h1 h2 h3 with ⟨g1, g2, g3⟩
      exact ih _ hr1o hr2o hrest g1 g2 g3
    | decayOp =>
      rcases decay_preserves_inv lex hr1 hr2 h1 h2 h3 with ⟨g1, g2, g3⟩
      exact ih _ hr1o hr2o hrest g1 g2 g3

end Haze

namespace Haze

/-! ## History truncation lemmas -/

theorem absorb_history_trunc (lex : Lexicon) (text src : String) (boost now : ℚ) :
    (lex.absorb text src boost now).1.history =
      lastN 100 (lex.history ++ [(lex.absorb text src boost now).2]) := by
  rw [absorb_fst_history]
  by_cases hc : 100 < (lex.history ++ [(lex.absorb text src boost now).2]).length
  · rw [if_pos hc]
  · rw [if_neg hc, lastN_of_length_le (by omega)]

theorem runOps_history (ops : List LexOp) (lex : Lexicon)
    (h : lex.history.length ≤ 100) :
    (runOps lex ops).history = lastN 100 (lex.history ++ runRecords lex ops) := by
  induction ops generalizing lex with
  | nil =>
    show lex.history = lastN 100 (lex.history ++ [])
    rw [List.append_nil, lastN_of_length_le h]
  | cons op ops ih =>
    cases op with
    | absorbOp t s b n =>
      show (runOps (lex.absorb t s b n).1 ops).history = _
      have hlen : (lex.absorb t s b n).1.history.length ≤ 100 := by
        rw [absorb_history_trunc, length_lastN]
        omega
      rw [ih _ hlen, absorb_history_trunc,
        show runRecords lex (LexOp.absorbOp t s b n :: ops) =
          (lex.absorb t s b n).2 :: runRecords (lex.absorb t s b n).1 ops from rfl,
        lastN_lastN_append]
      congr 1
      rw [List.append_assoc]
      rfl
    | decayOp =>
      show (runOps lex.decay.1 ops).history = _
      have hh : lex.decay.1.history = lex.history := rfl
      rw [ih _ (by rw [hh]; exact h), hh]
      rfl

/-! ## Reinforcement arithmetic -/

theorem reinforceWeight_le_two (x : ℚ) : reinforceWeight x ≤ 2 := min_le_left _ _

theorem le_reinforceWeight {x : ℚ} (h : x ≤ 2) : x ≤ reinforceWeight x :=
  le_min h (by linarith)

theorem reinforceWeight_iterate (x : ℚ) (k : Nat) (hk : 1 ≤ k) :
    reinforceWeight^[k] x = min 2 (x + k * (1 / 10)) := by
  induction k with
  | zero => simp at hk
  | succ n ih =>
    by_cases hn : n = 0
    · subst hn
      rw [Function.iterate_one, reinforceWeight]
      norm_num
    · have h1 : 1 ≤ n := Nat.one_le_iff_ne_zero.mpr hn
      rw [Function.iterate_succ_apply', ih h1, reinforceWeight]
      rcases le_or_lt (x + n * (1 / 10)) 2 with hc | hc
      · rw [min_eq_right hc]
        congr 1
        push_cast
        ring
      · rw [min_eq_left (le_of_lt hc), min_eq_left (by norm_num),
          min_eq_left (by push_cast; linarith)]

theorem reinforceWeight_reaches (x : ℚ) : ∃ k, reinforceWeight^[k] x = 2 := by
  refine ⟨(⌈(2 - x) * 10⌉).toNat + 1, ?_⟩
  rw [reinforceWeight_iterate x _ (by omega)]
  have h4 : ((2 - x) * 10 : ℚ) ≤ ((⌈(2 - x) * 10⌉).toNat : ℚ) := by
    calc ((2 - x) * 10 : ℚ) ≤ ((⌈(2 - x) * 10⌉ : ℤ) : ℚ) := Int.le_ceil _
    _ ≤ _ := by exact_mod_cast Int.self_le_toNat _
  refine min_eq_left ?_
  push_cast
  linarith

/-! ## Integer truncation lemmas -/

theorem truncInt_nonneg {q : ℚ} (h : 0 ≤ q) : 0 ≤ truncInt q :=
  Int.tdiv_nonneg (Rat.num_nonneg.mpr h) (Int.ofNat_nonneg _)

theorem num_lt_den_of_lt_one {q : ℚ} (h : q < 1) : q.num < (q.den : Int) := by
  have hd : (0:ℚ) < (q.den : ℚ) := by exact_mod_cast q.pos
  have hn : (q.num : ℚ) = q * q.den := by
    have hne : ((q.den : ℚ)) ≠ 0 := ne_of_gt hd
    calc (q.num : ℚ) = ((q.num : ℚ) / q.den) * q.den := by field_simp
    _ = q * q.den := by rw [Rat.num_div_den]
  have h2 : (q.num : ℚ) < (q.den : ℚ) := by nlinarith
  exact_mod_cast h2

theorem truncInt_eq_zero {q : ℚ} (h0 : 0 ≤ q) (h1 : q < 1) : truncInt q = 0 :=
  Int.tdiv_eq_zero_of_lt (Rat.num_nonneg.mpr h0) (num_lt_den_of_lt_one h1)

end Haze

namespace Haze

theorem runOps_inj_inv (ops : List LexOp) (lex : Lexicon)
    (h : ∀ u, lex.injections.count u = if u ∈ lex.absorbed_trigrams then 1 else 0) :
    ∀ u, (runOps lex ops).injections.count u =
      if u ∈ (runOps lex ops).absorbed_trigrams then 1 else 0 := by
  induction ops generalizing lex with
  | nil => exact h
  | cons op ops ih =>
    cases op with
    | absorbOp t s b n =>
      show ∀ u, (runOps (lex.absorb t s b n).1 ops).injections.count u = _
      refine ih _ ?_
      intro u
      rw [absorb_fst_inj, absorb_fst_atri]
      exact triFold_inj_inv lex.encode b (extractTrigrams t)
        { atri := lex.absorbed_trigrams, st := lex.field, nt := [],
          inj := lex.injections } h u
    | decayOp =>
      show ∀ u, (runOps lex.decay.1 ops).injections.count u = _
      exact ih _ h

theorem absorb_stable_of_absorbed (lex : Lexicon) {t : String × String × String}
    (h : t ∈ lex.absorbed_trigrams) (text src : String) (boost now : ℚ) :
    t ∉ (lex.absorb text src boost now).2.trigrams ∧
      (lex.absorb text src boost now).1.injections.count t = lex.injections.count t := by
  have hs := triFold_stable lex.encode boost (extractTrigrams text)
    { atri := lex.absorbed_trigrams, st := lex.field, nt := [], inj := lex.injections } h
  constructor
  · rw [absorb_snd_trigrams]
    intro hmem
    have h0 : ((extractTrigrams text).foldl (absorbTriStep lex.encode boost)
        { atri := lex.absorbed_trigrams, st := lex.field, nt := [],
          inj := lex.injections }).nt.count t = 0 := by
      rw [hs.2]
      rfl
    exact List.count_eq_zero.mp h0 hmem
  · rw [absorb_fst_inj]
    exact hs.1

/-- Claim C1: trigram absorption is idempotent.  In every state reachable
from a fresh instance, the ghost injection log holds exactly one
injection attempt for each trigram in `absorbed_trigrams` and none for
any other trigram; and absorbing text containing an already-absorbed
trigram puts it in neither list of the returned record (the `words` list
holds `String`s, so a trigram cannot occur there by typing) and performs
no further injection of it. -/
theorem C1_trigram_idempotent (encode : String → List Nat) (st : CooccurField)
    (rate : ℚ) (minLen : Nat) (ops : List LexOp) :
    (∀ t, (runOps (Lexicon.init encode st rate minLen) ops).injections.count t =
      if t ∈ (runOps (Lexicon.init encode st rate minLen) ops).absorbed_trigrams
        then 1 else 0) ∧
      (∀ (text src : String) (boost now : ℚ) (t : String × String × String),
        t ∈ (runOps (Lexicon.init encode st rate minLen) ops).absorbed_trigrams →
          t ∉ ((runOps (Lexicon.init encode st rate minLen) ops).absorb
              text src boost now).2.trigrams ∧
            ((runOps (Lexicon.init encode st rate minLen) ops).absorb
                text src boost now).1.injections.count t =
              (runOps (Lexicon.init encode st rate minLen) ops).injections.count t) := by
  constructor
  · exact runOps_inj_inv ops _ (fun u => by simp [Lexicon.init])
  · intro text src boost now t ht
    exact absorb_stable_of_absorbed _ ht text src boost now

/-- Witness for C1 at a concrete run: after absorbing "a b c" once, the
trigram ("a","b","c") has exactly one logged injection, and absorbing
the same text again reports it in neither list and logs no injection. -/
theorem C1_witness :
    (runOps (Lexicon.init encA stA 1 3)
        [LexOp.absorbOp ("a b c") ("user") 1 0]).injections.count (("a"), ("b"), ("c")) = 1 ∧
      (("a"), ("b"), ("c")) ∉ ((runOps (Lexicon.init encA stA 1 3)
        [LexOp.absorbOp ("a b c") ("user") 1 0]).absorb
          ("a b c") ("user") 1 0).2.trigrams := by
  have h := C1_trigram_idempotent encA stA 1 3 [LexOp.absorbOp ("a b c") ("user") 1 0]
  constructor
  · exact (h.1 (("a"), ("b"), ("c"))).trans (by decide)
  · exact (h.2 ("a b c") ("user") 1 0 (("a"), ("b"), ("c")) (by decide)).1

end Haze

namespace Haze

/-- Counterexample to claim C2 as stated: with an arbitrary boost the
invariant fails — `absorb("abc", boost=3.0)` reaches a state whose
`word_weights` holds the value 3, which is outside (0, 2.0]. -/
theorem C2_counterexample :
    (("abc"), (3:ℚ)) ∈ (runOps (Lexicon.init encA stA 1 3)
        [LexOp.absorbOp ("abc") ("user") 3 0]).word_weights ∧
      ¬ ((3:ℚ) ≤ 2) := by
  constructor
  · show (("abc"), (3:ℚ)) ∈ [(("abc"), (3:ℚ))]
    exact List.mem_singleton.mpr rfl
  · norm_num

/-- Claim C2 (amended): in every state reachable by absorb and decay
calls whose boosts all lie in (0, 2.0] and whose decay rate lies in
(0, 1] (the default 0.99 qualifies), every value in `word_weights` lies
in (0, 2.0] and the key multiset of `word_weights` is exactly
`absorbed_words`: membership coincides and each key has exactly one
entry.  (With an unrestricted boost the claim is false — see the
counterexample.) -/
theorem C2_weight_invariant_amended (encode : String → List Nat)
    (st : CooccurField) (rate : ℚ) (minLen : Nat) (ops : List LexOp)
    (hr1 : 0 < rate) (hr2 : rate ≤ 1) (hops : ∀ op ∈ ops, op.boostOK) :
    (∀ p ∈ (runOps (Lexicon.init encode st rate minLen) ops).word_weights,
        0 < p.2 ∧ p.2 ≤ 2) ∧
      (∀ w, w ∈ (runOps (Lexicon.init encode st rate minLen) ops).absorbed_words ↔
        w ∈ (runOps (Lexicon.init encode st rate minLen) ops).word_weights.map
          Prod.fst) ∧
      ((runOps (Lexicon.init encode st rate minLen) ops).word_weights.map
        Prod.fst).Nodup :=
  runOps_inv ops _ hr1 hr2 hops (by simp [Lexicon.init])
    (by simp [Lexicon.init]) (by simp [Lexicon.init])

/-- Witness for C2 at a concrete run with boost 1 and rate 0.99. -/
theorem C2_witness :
    ((0:ℚ) < 99 / 100 ∧ (99 / 100 : ℚ) ≤ 1 ∧
      (∀ op ∈ [LexOp.absorbOp ("abc") ("user") 1 0, LexOp.decayOp],
        op.boostOK)) ∧
      ((∀ p ∈ (runOps (Lexicon.init encA stA (99 / 100) 3)
          [LexOp.absorbOp ("abc") ("user") 1 0, LexOp.decayOp]).word_weights,
          0 < p.2 ∧ p.2 ≤ 2) ∧
        (∀ w, w ∈ (runOps (Lexicon.init encA stA (99 / 100) 3)
            [LexOp.absorbOp ("abc") ("user") 1 0, LexOp.decayOp]).absorbed_words ↔
          w ∈ (runOps (Lexicon.init encA stA (99 / 100) 3)
            [LexOp.absorbOp ("abc") ("user") 1 0,
              LexOp.decayOp]).word_weights.map Prod.fst) ∧
        ((runOps (Lexicon.init encA stA (99 / 100) 3)
          [LexOp.absorbOp ("abc") ("user") 1 0,
            LexOp.decayOp]).word_weights.map Prod.fst).Nodup) := by
  have hops : ∀ op ∈ [LexOp.absorbOp ("abc") ("user") 1 0, LexOp.decayOp],
      LexOp.boostOK op := by
    rintro op hop
    rcases List.mem_cons.mp hop with rfl | hop2
    · exact ⟨by norm_num, by norm_num⟩
    · rcases List.mem_cons.mp hop2 with rfl | hop3
      · trivial
      · simp at hop3
  exact ⟨⟨by norm_num, by norm_num, hops⟩,
    C2_weight_invariant_amended encA stA (99 / 100) 3 _ (by norm_num)
      (by norm_num) hops⟩

end Haze

namespace Haze

set_option maxRecDepth 10000 in
/-- Counterexample to claim C3 as stated: after 101 absorb calls (first
with source "a", then 100 with source "b"), `stats().unique_sources`
is 1, while the number of distinct source tags across the entire
absorption history is 2 — the truncated 100-record history has dropped
the "a" record. -/
theorem C3_counterexample :
    (runOps (Lexicon.init encA stA 1 3)
        (LexOp.absorbOp ("") ("a") 1 0 ::
          List.replicate 100 (LexOp.absorbOp ("") ("b") 1 0))).stats.unique_sources
      = 1 ∧
      ((runRecords (Lexicon.init encA stA 1 3)
          (LexOp.absorbOp ("") ("a") 1 0 ::
            List.replicate 100 (LexOp.absorbOp ("") ("b") 1 0))).map
        (fun r => r.source)).dedup.length = 2 ∧ (1 : Nat) ≠ 2 :=
  ⟨by decide, by decide, by decide⟩

/-- Claim C3 (amended): `stats().unique_sources` equals the number of
distinct source tags over the retained history only — the last
min(100, n) records of the full absorption history; source tags that
appear only in records already evicted by the FIFO bound are not
counted. -/
theorem C3_unique_sources_amended (encode : String → List Nat)
    (st : CooccurField) (rate : ℚ) (minLen : Nat) (ops : List LexOp) :
    (runOps (Lexicon.init encode st rate minLen) ops).stats.unique_sources =
      ((lastN 100 (runRecords (Lexicon.init encode st rate minLen) ops)).map
        (fun r => r.source)).dedup.length := by
  have h := runOps_history ops (Lexicon.init encode st rate minLen)
    (by simp [Lexicon.init])
  show ((runOps (Lexicon.init encode st rate minLen) ops).history.map
    (fun r => r.source)).dedup.length = _
  rw [h]
  rfl

end Haze

namespace Haze

/-- Counterexample to claim C4 as stated: a history of length 1 whose
single record has count 4 ("abc def ghi": 3 new words, 1 new trigram)
gives `stats().growth_rate = 0.0`, while the claimed formula gives
4 / min(10, 1) = 4. -/
theorem C4_counterexample :
    ((runOps (Lexicon.init encA stA 1 3)
        [LexOp.absorbOp ("abc def ghi") ("user") 1 0]).stats.growth_rate = 0) ∧
      (((lastN 10 (runOps (Lexicon.init encA stA 1 3)
            [LexOp.absorbOp ("abc def ghi") ("user") 1 0]).history).map
          (fun r => (r.count : ℚ))).sum /
        ((min 10 (runOps (Lexicon.init encA stA 1 3)
          [LexOp.absorbOp ("abc def ghi") ("user") 1 0]).history.length : Nat) : ℚ)
        = 4) ∧
      ((0 : ℚ) ≠ 4) := by
  refine ⟨rfl, ?_, by norm_num⟩
  have hlen : (runOps (Lexicon.init encA stA 1 3)
      [LexOp.absorbOp ("abc def ghi") ("user") 1 0]).history.length = 1 := by decide
  have hlast : lastN 10 (runOps (Lexicon.init encA stA 1 3)
      [LexOp.absorbOp ("abc def ghi") ("user") 1 0]).history =
        (runOps (Lexicon.init encA stA 1 3)
          [LexOp.absorbOp ("abc def ghi") ("user") 1 0]).history :=
    lastN_of_length_le (by rw [hlen]; norm_num)
  have hcount : (runOps (Lexicon.init encA stA 1 3)
      [LexOp.absorbOp ("abc def ghi") ("user") 1 0]).history.map
        (fun r => r.count) = [4] := by decide
  have hmap : (runOps (Lexicon.init encA stA 1 3)
      [LexOp.absorbOp ("abc def ghi") ("user") 1 0]).history.map
        (fun r => (r.count : ℚ)) = [((4 : Nat) : ℚ)] := by
    rw [show (fun (r : AbsorptionRecord) => (r.count : ℚ)) =
      (fun n : Nat => (n : ℚ)) ∘ (fun r => r.count) from rfl, ← List.map_map, hcount]
    rfl
  rw [hlast, hmap, hlen]
  norm_num

/-- Claim C4 (amended): whenever the history holds at least 2 records,
`stats().growth_rate` equals the sum of `count` over the last
min(10, |history|) records divided by min(10, |history|), exactly;
with fewer than 2 records the code returns 0.0 instead of the formula
(see the counterexample). -/
theorem C4_growth_rate_amended (lex : Lexicon) (h : 2 ≤ lex.history.length) :
    lex.stats.growth_rate =
      ((lastN 10 lex.history).map (fun r => (r.count : ℚ))).sum /
        ((min 10 lex.history.length : Nat) : ℚ) := by
  show (if 2 ≤ lex.history.length then
      ((lastN 10 lex.history).map (fun r => (r.count : ℚ))).sum /
        (((lastN 10 lex.history).length : Nat) : ℚ) else 0) = _
  rw [if_pos h, length_lastN]

/-- Witness for C4 at a concrete two-record history. -/
theorem C4_witness :
    2 ≤ (runOps (Lexicon.init encA stA 1 3)
        [LexOp.absorbOp ("abc") ("user") 1 0,
          LexOp.absorbOp ("def") ("user") 1 0]).history.length ∧
      (runOps (Lexicon.init encA stA 1 3)
        [LexOp.absorbOp ("abc") ("user") 1 0,
          LexOp.absorbOp ("def") ("user") 1 0]).stats.growth_rate =
        ((lastN 10 (runOps (Lexicon.init encA stA 1 3)
            [LexOp.absorbOp ("abc") ("user") 1 0,
              LexOp.absorbOp ("def") ("user") 1 0]).history).map
          (fun r => (r.count : ℚ))).sum /
        ((min 10 (runOps (Lexicon.init encA stA 1 3)
          [LexOp.absorbOp ("abc") ("user") 1 0,
            LexOp.absorbOp ("def") ("user") 1 0]).history.length : Nat) : ℚ) :=
  ⟨by decide, C4_growth_rate_amended _ (by decide)⟩

end Haze

namespace Haze

/-- Counterexample to claim C5 as stated: `absorb` with the arbitrary
boost -1.0 decrements a bigram count — `int(-1.0) = -1` is added, so the
count at (97, 98) drops from 5 to 4. -/
theorem C5_counterexample :
    (Lexicon.init encA stB 1 3).field.bigram_counts 97 98 = 5 ∧
      ((Lexicon.init encA stB 1 3).absorb ("a b c") ("user") (-1)
        0).1.field.bigram_counts 97 98 = 4 ∧ ((4 : Int) < 5) :=
  ⟨rfl, by decide, by decide⟩

/-- Claim C5 (amended): for every `absorb` call with boost ≥ 0 no bigram
or trigram count in the co-occurrence store decreases; each performed
injection adds `int(weight)` (truncation toward zero) to the two
boundary pair counts and the one triple count (stated for distinct pair
keys); and a weight strictly between 0 and 1 contributes a
zero-magnitude update, leaving the store exactly unchanged.  (With a
boost ≤ -1 counts do decrease — see the counterexample.) -/
theorem C5_injection_additive_amended (lex : Lexicon) (text src : String)
    (boost now : ℚ) (hw : 0 ≤ boost) :
    (∀ a b, lex.field.bigram_counts a b ≤
        (lex.absorb text src boost now).1.field.bigram_counts a b) ∧
      (∀ a b c, lex.field.trigram_counts a b c ≤
        (lex.absorb text src boost now).1.field.trigram_counts a b c) ∧
      (boost < 1 → (lex.absorb text src boost now).1.field = lex.field) ∧
      (∀ (st : CooccurField) (tri : String × String × String) (l1 f2 l2 f3 : Nat),
        (lex.encode tri.1).getLast? = some l1 →
        (lex.encode tri.2.1).head? = some f2 →
        (lex.encode tri.2.1).getLast? = some l2 →
        (lex.encode tri.2.2).head? = some f3 →
        (l1, f2) ≠ (l2, f3) →
        (injectTrigram lex.encode st tri boost).bigram_counts l1 f2
            = st.bigram_counts l1 f2 + truncInt boost ∧
          (injectTrigram lex.encode st tri boost).bigram_counts l2 f3
            = st.bigram_counts l2 f3 + truncInt boost ∧
          (injectTrigram lex.encode st tri boost).trigram_counts l1 f2 l2
            = st.trigram_counts l1 f2 l2 + truncInt boost) := by
  have hnn := truncInt_nonneg hw
  refine ⟨?_, ?_, ?_, ?_⟩
  · intro a b
    rw [absorb_fst_field]
    exact (triFold_store_le lex.encode boost hnn _ _).1 a b
  · intro a b c
    rw [absorb_fst_field]
    exact (triFold_store_le lex.encode boost hnn _ _).2 a b c
  · intro h1
    rw [absorb_fst_field]
    exact triFold_store_eq lex.encode boost (truncInt_eq_zero hw h1) _ _
  · intro st tri l1 f2 l2 f3 h1 h2 h3 h4 hne
    exact injectTrigram_counts lex.encode st tri boost h1 h2 h3 h4 hne

/-- Witness for C5: a boost of 1/2 satisfies the hypothesis and leaves
the store exactly unchanged. -/
theorem C5_witness :
    (0 : ℚ) ≤ 1 / 2 ∧ ((1 / 2 : ℚ) < 1) ∧
      ((Lexicon.init encA stA 1 3).absorb ("a b c") ("user") (1 / 2) 0).1.field =
        (Lexicon.init encA stA 1 3).field :=
  ⟨by norm_num, by norm_num,
    (C5_injection_additive_amended (Lexicon.init encA stA 1 3) ("a b c") ("user")
      (1 / 2) 0 (by norm_num)).2.2.1 (by norm_num)⟩

end Haze

namespace Haze

/-- Claim C6: `decay()` multiplies every weight by `decay_rate`, removes
exactly the words whose new weight falls strictly below 0.1 from both
`word_weights` and `absorbed_words`, returns the number of words
removed, and a removed word is reported as newly absorbed (in the
record's `words` list, with weight set to `boost`) by a subsequent
`absorb` of text containing it. -/
theorem C6_decay_rebirth (lex : Lexicon)
    (hnd : (lex.word_weights.map Prod.fst).Nodup) :
    (∀ w wt, (w, wt) ∈ lex.word_weights → ¬ (wt * lex.decay_rate < 1 / 10) →
      (w, wt * lex.decay_rate) ∈ lex.decay.1.word_weights ∧
        (w ∈ lex.absorbed_words → w ∈ lex.decay.1.absorbed_words)) ∧
      (∀ w wt, (w, wt) ∈ lex.word_weights → wt * lex.decay_rate < 1 / 10 →
        w ∉ lex.decay.1.word_weights.map Prod.fst ∧
          w ∉ lex.decay.1.absorbed_words) ∧
      (∀ p ∈ lex.decay.1.word_weights, ∃ wt, (p.1, wt) ∈ lex.word_weights ∧
        p.2 = wt * lex.decay_rate ∧ ¬ (wt * lex.decay_rate < 1 / 10)) ∧
      (lex.decay.2 = lex.word_weights.length - lex.decay.1.word_weights.length) ∧
      (∀ (w : String) (wt : ℚ) (text src : String) (boost now : ℚ),
        (w, wt) ∈ lex.word_weights → wt * lex.decay_rate < 1 / 10 →
        (extractWords lex.min_word_length text).count w = 1 →
        w ∈ (lex.decay.1.absorb text src boost now).2.words ∧
          lookupW (lex.decay.1.absorb text src boost now).1.word_weights w
            = some boost) := by
  refine ⟨?_, ?_, ?_, (decay_removed_count lex).1, ?_⟩
  · intro w wt hm hk
    refine ⟨mem_decay_ww_iff.mpr ⟨wt, hm, rfl, hk⟩, fun hin => ?_⟩
    refine mem_decay_aw_iff.mpr ⟨hin, ?_⟩
    rintro ⟨wt2, hm2, hlt⟩
    exact hk (by rw [keys_unique hnd hm hm2]; exact hlt)
  · intro w wt hm hlt
    constructor
    · intro hmem
      rcases mem_decay_keys_iff.mp hmem with ⟨wt2, hm2, hk2⟩
      exact hk2 (by rw [← keys_unique hnd hm hm2]; exact hlt)
    · intro hmem
      exact (mem_decay_aw_iff.mp hmem).2 ⟨wt, hm, hlt⟩
  · rintro ⟨w, v⟩ hp
    rcases mem_decay_ww_iff.mp hp with ⟨wt, hm, he, hk⟩
    exact ⟨wt, hm, he, hk⟩
  · intro w wt text src boost now hm hlt hcount
    have haw : w ∉ lex.decay.1.absorbed_words := by
      intro hmem
      exact (mem_decay_aw_iff.mp hmem).2 ⟨wt, hm, hlt⟩
    have hins := wordFold_insert boost (extractWords lex.min_word_length text)
      { aw := lex.decay.1.absorbed_words, ww := lex.decay.1.word_weights, nw := [] }
      haw hcount
    exact ⟨by rw [absorb_snd_words]; exact hins.1,
      by rw [absorb_fst_ww]; exact hins.2.1⟩

/-- Witness for C6: absorb "abc" with boost 0.1 at rate 0.99, decay
removes it (0.099 < 0.1), and re-absorbing "abc" with boost 1 reports
it as new with weight 1. -/
theorem C6_witness :
    (((runOps (Lexicon.init encA stA (99 / 100) 3)
        [LexOp.absorbOp ("abc") ("user") (1 / 10) 0]).word_weights.map
          Prod.fst).Nodup ∧
      (("abc"), (1 / 10 : ℚ)) ∈ (runOps (Lexicon.init encA stA (99 / 100) 3)
        [LexOp.absorbOp ("abc") ("user") (1 / 10) 0]).word_weights ∧
      (1 / 10 : ℚ) * (runOps (Lexicon.init encA stA (99 / 100) 3)
        [LexOp.absorbOp ("abc") ("user") (1 / 10) 0]).decay_rate < 1 / 10 ∧
      (extractWords (runOps (Lexicon.init encA stA (99 / 100) 3)
        [LexOp.absorbOp ("abc") ("user") (1 / 10) 0]).min_word_length
          ("abc")).count ("abc") = 1) ∧
      (("abc") ∈ ((runOps (Lexicon.init encA stA (99 / 100) 3)
          [LexOp.absorbOp ("abc") ("user") (1 / 10) 0]).decay.1.absorb
            ("abc") ("user") 1 0).2.words ∧
        lookupW ((runOps (Lexicon.init encA stA (99 / 100) 3)
          [LexOp.absorbOp ("abc") ("user") (1 / 10) 0]).decay.1.absorb
            ("abc") ("user") 1 0).1.word_weights ("abc") = some 1) := by
  have hmem : (("abc"), (1 / 10 : ℚ)) ∈ (runOps (Lexicon.init encA stA (99 / 100) 3)
      [LexOp.absorbOp ("abc") ("user") (1 / 10) 0]).word_weights := by
    show (("abc"), (1 / 10 : ℚ)) ∈ [(("abc"), (1 / 10 : ℚ))]
    exact List.mem_singleton.mpr rfl
  have hnd : ((runOps (Lexicon.init encA stA (99 / 100) 3)
      [LexOp.absorbOp ("abc") ("user") (1 / 10) 0]).word_weights.map
        Prod.fst).Nodup := by
    show (["abc"] : List String).Nodup
    decide
  have hrate : (1 / 10 : ℚ) * (runOps (Lexicon.init encA stA (99 / 100) 3)
      [LexOp.absorbOp ("abc") ("user") (1 / 10) 0]).decay_rate < 1 / 10 := by
    show (1 / 10 : ℚ) * (99 / 100) < 1 / 10
    norm_num
  have hcount : (extractWords (runOps (Lexicon.init encA stA (99 / 100) 3)
      [LexOp.absorbOp ("abc") ("user") (1 / 10) 0]).min_word_length
        ("abc")).count ("abc") = 1 := by decide
  exact ⟨⟨hnd, hmem, hrate, hcount⟩,
    (C6_decay_rebirth _ hnd).2.2.2.2 ("abc") (1 / 10) ("abc") ("user") 1 0
      hmem hrate hcount⟩

end Haze

namespace Haze

/-- Counterexample to claim C7 as stated: a word first absorbed with
boost 3.0 holds weight 3; the next reinforcement sets it to
min(2.0, 3 + 0.1) = 2 < 3, so under repeated reinforcement the weight
is not non-decreasing when it starts above 2.0. -/
theorem C7_counterexample :
    lookupW (runOps (Lexicon.init encA stA 1 3)
        [LexOp.absorbOp ("abc") ("user") 3 0]).word_weights ("abc") = some 3 ∧
      lookupW (runOps (Lexicon.init encA stA 1 3)
        [LexOp.absorbOp ("abc") ("user") 3 0,
          LexOp.absorbOp ("abc") ("user") 1 0]).word_weights ("abc") = some 2 ∧
      ((2 : ℚ) < 3) := by
  refine ⟨rfl, ?_, by norm_num⟩
  show some (reinforceWeight 3) = some 2
  norm_num [reinforceWeight]

/-- Claim C7 (amended): for a word already in `absorbed_words`, `absorb`
updates its weight to min(2.0, old + 0.1) regardless of the boost
argument; the reinforcement map never exceeds 2.0, is non-decreasing
provided the current weight is at most 2.0 (as when every boost lies in
(0, 2.0]), its k-fold iterate is min(2.0, old + k·0.1), and it reaches
exactly 2.0 after finitely many reinforcements.  (Starting above 2.0 —
possible only via a boost above 2.0 — the first reinforcement
decreases the weight; see the counterexample.) -/
theorem C7_reinforcement_amended (lex : Lexicon) (w : String) (wt : ℚ)
    (text src : String) (boost now : ℚ)
    (hmem : w ∈ lex.absorbed_words)
    (hlook : lookupW lex.word_weights w = some wt)
    (hcount : (extractWords lex.min_word_length text).count w = 1) :
    lookupW (lex.absorb text src boost now).1.word_weights w
        = some (reinforceWeight wt) ∧
      reinforceWeight wt = min 2 (wt + 1 / 10) ∧
      (wt ≤ 2 → wt ≤ reinforceWeight wt) ∧
      reinforceWeight wt ≤ 2 ∧
      (∀ k, 1 ≤ k → reinforceWeight^[k] wt = min 2 (wt + k * (1 / 10))) ∧
      (∃ k, reinforceWeight^[k] wt = 2) := by
  refine ⟨?_, rfl, fun h => le_reinforceWeight h, reinforceWeight_le_two wt,
    fun k hk => reinforceWeight_iterate wt k hk, reinforceWeight_reaches wt⟩
  rw [absorb_fst_ww]
  exact wordFold_reinforce boost (extractWords lex.min_word_length text)
    { aw := lex.absorbed_words, ww := lex.word_weights, nw := [] } hmem hlook hcount

/-- Witness for C7: the absorbed word "abc" with weight 1 is reinforced
to min(2, 1.1) even when the second absorb passes boost 5. -/
theorem C7_witness :
    (("abc") ∈ (runOps (Lexicon.init encA stA 1 3)
        [LexOp.absorbOp ("abc") ("user") 1 0]).absorbed_words ∧
      lookupW (runOps (Lexicon.init encA stA 1 3)
        [LexOp.absorbOp ("abc") ("user") 1 0]).word_weights ("abc") = some 1 ∧
      (extractWords (runOps (Lexicon.init encA stA 1 3)
        [LexOp.absorbOp ("abc") ("user") 1 0]).min_word_length
          ("abc")).count ("abc") = 1) ∧
      lookupW ((runOps (Lexicon.init encA stA 1 3)
        [LexOp.absorbOp ("abc") ("user") 1 0]).absorb ("abc") ("user") 5
          0).1.word_weights ("abc") = some (reinforceWeight 1) := by
  have h1 : ("abc") ∈ (runOps (Lexicon.init encA stA 1 3)
      [LexOp.absorbOp ("abc") ("user") 1 0]).absorbed_words := by decide
  have h2 : lookupW (runOps (Lexicon.init encA stA 1 3)
      [LexOp.absorbOp ("abc") ("user") 1 0]).word_weights ("abc") = some 1 := rfl
  have h3 : (extractWords (runOps (Lexicon.init encA stA 1 3)
      [LexOp.absorbOp ("abc") ("user") 1 0]).min_word_length
        ("abc")).count ("abc") = 1 := by decide
  exact ⟨⟨h1, h2, h3⟩,
    (C7_reinforcement_amended _ ("abc") 1 ("abc") ("user") 5 0 h1 h2 h3).1⟩

end Haze

namespace Haze

/-- Claim C8: if any of a trigram's three words encodes to the empty
token sequence, the injection makes no update at all to the
co-occurrence store; yet an unseen extracted trigram is still added to
`absorbed_trigrams` and still appears in the `trigrams` list of the
record returned by `absorb`. -/
theorem C8_unencodable_noop (lex : Lexicon) (text src : String)
    (boost now : ℚ) (tri : String × String × String)
    (hud : lex.encode tri.1 = [] ∨ lex.encode tri.2.1 = [] ∨
      lex.encode tri.2.2 = []) :
    (∀ (st : CooccurField) (w : ℚ), injectTrigram lex.encode st tri w = st) ∧
      (tri ∈ extractTrigrams text → tri ∉ lex.absorbed_trigrams →
        tri ∈ (lex.absorb text src boost now).2.trigrams ∧
          tri ∈ (lex.absorb text src boost now).1.absorbed_trigrams) := by
  constructor
  · intro st w
    exact injectTrigram_noop_of_unencodable lex.encode st tri w hud
  · intro hext hnew
    have h := triFold_new lex.encode boost (extractTrigrams text)
      { atri := lex.absorbed_trigrams, st := lex.field, nt := [],
        inj := lex.injections } hext hnew
    exact ⟨by rw [absorb_snd_trigrams]; exact h.1,
      by rw [absorb_fst_atri]; exact h.2⟩

/-- Witness for C8: with a tokenizer that cannot encode "b", injecting
("a","b","c") leaves a store untouched, yet absorbing "a b c" still
reports the trigram as newly absorbed. -/
theorem C8_witness :
    ((Lexicon.init encB stA 1 3).encode (("a"), ("b"), ("c")).1 = [] ∨
      (Lexicon.init encB stA 1 3).encode (("a"), ("b"), ("c")).2.1 = [] ∨
      (Lexicon.init encB stA 1 3).encode (("a"), ("b"), ("c")).2.2 = []) ∧
      injectTrigram (Lexicon.init encB stA 1 3).encode stB
        (("a"), ("b"), ("c")) 1 = stB ∧
      (("a"), ("b"), ("c")) ∈ ((Lexicon.init encB stA 1 3).absorb
        ("a b c") ("user") 1 0).2.trigrams := by
  have hud : (Lexicon.init encB stA 1 3).encode (("a"), ("b"), ("c")).1 = [] ∨
      (Lexicon.init encB stA 1 3).encode (("a"), ("b"), ("c")).2.1 = [] ∨
      (Lexicon.init encB stA 1 3).encode (("a"), ("b"), ("c")).2.2 = [] :=
    Or.inr (Or.inl (by decide))
  have h := C8_unencodable_noop (Lexicon.init encB stA 1 3) ("a b c") ("user")
    1 0 (("a"), ("b"), ("c")) hud
  exact ⟨hud, h.1 stB 1, (h.2 (by decide) (by decide)).1⟩

theorem triWindows_length : ∀ (l : List String),
    (triWindows l).length = l.length - 2
  | [] => rfl
  | [_] => rfl
  | [_, _] => rfl
  | a :: b :: c :: rest => by
    have ih := triWindows_length (b :: c :: rest)
    simp only [triWindows, List.length_cons, ih]
    omega

/-- Claim C9: word extraction lowercases, splits on maximal
alphanumeric/underscore runs and keeps only words of length ≥
`min_word_length`, while trigram extraction runs over the unfiltered
word sequence, yielding exactly max(0, n-2) consecutive windows (Nat
subtraction); on "the cat sat on the mat" the filtered words are
["the","cat","sat","the","mat"] but there are 4 trigrams, including
("cat","sat","on") containing the short word "on". -/
theorem C9_extraction_asymmetry (minLen : Nat) (text : String) :
    extractWords minLen text = (rawWords text).filter
        (fun w => minLen ≤ w.length) ∧
      extractTrigrams text = triWindows (rawWords text) ∧
      (extractTrigrams text).length = (rawWords text).length - 2 ∧
      rawWords ("the cat sat on the mat") =
        [("the"), ("cat"), ("sat"), ("on"), ("the"), ("mat")] ∧
      extractWords 3 ("the cat sat on the mat") =
        [("the"), ("cat"), ("sat"), ("the"), ("mat")] ∧
      extractTrigrams ("the cat sat on the mat") =
        [(("the"), ("cat"), ("sat")), (("cat"), ("sat"), ("on")),
          (("sat"), ("on"), ("the")), (("on"), ("the"), ("mat"))] ∧
      (("cat"), ("sat"), ("on")) ∈ extractTrigrams ("the cat sat on the mat") ∧
      (("on") : String).length = 2 ∧
      ("on") ∉ extractWords 3 ("the cat sat on the mat") ∧
      extractWords 3 ("The CAT sat") = [("the"), ("cat"), ("sat")] :=
  ⟨rfl, rfl, triWindows_length (rawWords text), by decide, by decide, by decide,
    by decide, by decide, by decide, by decide⟩

end Haze
